import Mathlib

/-!
Verification of the OMR core of the exam-grading repository
(`src/exam_grading/run_omr.py`), shallowly embedded in Lean 4.

Intensities and thresholds are Python floats; we model them as rationals
with exact arithmetic.  Python dictionaries are modelled as association
lists that preserve insertion order (Python 3.7+ dict semantics).
-/

namespace ExamGrading

/-- Constant `MIN_JUMP = 25`: minimum intensity jump between marked/unmarked bubbles. -/
def MIN_JUMP : ℚ := 25

/-- Constant `GLOBAL_THRESHOLD = 210`: maximum intensity for a bubble to be considered marked. -/
def GLOBAL_THRESHOLD : ℚ := 210

/-- Constant `THRESHOLD_CIRCLE = 0.6`: minimum correlation confidence for marker detection. -/
def THRESHOLD_CIRCLE : ℚ := 6 / 10

/-- Consecutive pairs `(l[i-1], l[i])` of a list, as scanned by the
`for i in range(1, n)` loop of `calculate_threshold`. -/
def adjacentPairs (l : List ℚ) : List (ℚ × ℚ) := l.zip l.tail

/-- The loop body of `calculate_threshold`: state `(max_gap, threshold)`,
updated at a pair whenever `gap > MIN_JUMP and gap > max_gap`, with the new
threshold the midpoint of the pair. -/
def thresholdScan : ℚ × ℚ → List (ℚ × ℚ) → ℚ × ℚ
  | st, [] => st
  | st, p :: rest =>
      if p.2 - p.1 > MIN_JUMP ∧ p.2 - p.1 > st.1 then
        thresholdScan (p.2 - p.1, (p.1 + p.2) / 2) rest
      else
        thresholdScan st rest

/-- Shallow embedding of `calculate_threshold(values)` from `run_omr.py`:
sort ascending, scan consecutive gaps keeping the first largest gap above
`MIN_JUMP` and its midpoint, fall back to the mean when no gap qualified,
and cap the result at `GLOBAL_THRESHOLD`. -/
def calculate_threshold (values : List ℚ) : ℚ :=
  if values = [] then min 200 GLOBAL_THRESHOLD
  else
    let sorted_values := values.insertionSort (· ≤ ·)
    let st := thresholdScan (0, min 200 GLOBAL_THRESHOLD) (adjacentPairs sorted_values)
    let threshold := if st.1 = 0 then sorted_values.sum / (sorted_values.length : ℚ) else st.2
    min threshold GLOBAL_THRESHOLD

/-- Truncation toward zero on ℚ: the behaviour of Python `int()` applied to a
float (`int(-2.7) = -2`). -/
def ratTrunc (q : ℚ) : ℤ := if q < 0 then -⌊-q⌋ else ⌊q⌋

/-- Shallow embedding of `point_to_pixel(point_value, dpi)` from `run_omr.py`:
`int(point_value * dpi / 72.27)`.  The float literal 72.27 is modelled as the
exact rational 7227/100; Python `int()` truncates toward zero. -/
def point_to_pixel (point_value dpi : ℚ) : ℤ :=
  ratTrunc (point_value * dpi / (7227 / 100))

/-- Shallow embedding of the mark test used both in `process_single_image`
(line 325) and in `create_overlay_with_marks` (line 619):
`value < threshold and value < GLOBAL_THRESHOLD`. -/
def is_marked (value threshold : ℚ) : Bool :=
  decide (value < threshold) && decide (value < GLOBAL_THRESHOLD)

/-- Python strings are modelled as lists of characters (`"lit".data`), since
all string operations in `run_omr.py` are character-based. -/
abbrev PyStr := List Char

/-- Python `s.split(sep)` for a one-character separator (the code only splits
on `'_'`, `'-'` and `'.'`).  Like Python, the result is never empty and empty
fields are kept. -/
def pySplit (sep : Char) : PyStr → List PyStr
  | [] => [[]]
  | c :: cs =>
      let rest := pySplit sep cs
      if c = sep then [] :: rest
      else (c :: rest.headI) :: rest.tail

/-- Python `int(s)` on a string of decimal digits.  (On malformed input Python
raises `ValueError`; the code only applies it to digit position fields.) -/
def pyInt (s : PyStr) : ℕ :=
  s.foldl (fun n c => n * 10 + (c.toNat - '0'.toNat)) 0

/-- Dictionary lookup `d.get(k)` over an insertion-ordered association list. -/
def assocFind {α β : Type} [DecidableEq α] (k : α) : List (α × β) → Option β
  | [] => none
  | kv :: rest => if kv.1 = k then some kv.2 else assocFind k rest

/-- Dictionary update `d[k] = f(d.get(k))` with Python 3.7+ semantics: an
existing key keeps its insertion position, a new key is appended at the end. -/
def assocUpsert {α β : Type} [DecidableEq α] (k : α) (f : Option β → β) :
    List (α × β) → List (α × β)
  | [] => [(k, f none)]
  | kv :: rest =>
      if kv.1 = k then (kv.1, f (some kv.2)) :: rest
      else kv :: assocUpsert k f rest

/-- The two dictionaries built by the `for key, value in bubble_values.items()`
loop of `process_single_image`: `numeric_bubbles` maps a question to its
position → digit-token dictionary, `regular_bubbles` maps a question to its
marked multiple-choice letters. -/
structure ProcState where
  numeric : List (PyStr × List (ℕ × PyStr))
  regular : List (PyStr × List PyStr)
deriving DecidableEq

/-- One iteration of the bubble-classification loop (`run_omr.py` lines
327-356): split the key at `'_'`; a choice part with ≥ 3 `'-'`-separated fields
is a numeric bubble, recorded (first mark per position wins) when its digit is
D/S or the bubble is marked; otherwise a marked multiple-choice bubble is
appended to its question's choice list. -/
def process_bubble (threshold : ℚ) (st : ProcState) (kv : PyStr × ℚ) : ProcState :=
  let parts := pySplit '_' kv.1
  if parts.length = 2 then
    let question_subquestion := parts.headI
    let choice := parts.getD 1 []
    if choice.contains '-' ∧ (pySplit '-' choice).length ≥ 3 then
      let choice_parts := pySplit '-' choice
      let position := pyInt (choice_parts.getD 1 [])
      let digit_value := choice_parts.getD 2 []
      if digit_value = "D".data ∨ digit_value = "S".data ∨ is_marked kv.2 threshold then
        let numeric1 := assocUpsert question_subquestion
          (fun old =>
            let m := old.getD []
            if (assocFind position m).isSome then m else m ++ [(position, digit_value)])
          st.numeric
        { st with numeric := numeric1 }
      else st
    else
      if is_marked kv.2 threshold then
        let regular1 := assocUpsert question_subquestion
          (fun old => old.getD [] ++ [choice]) st.regular
        { st with regular := regular1 }
      else st
  else st

/-- The whole classification loop over `bubble_values` in insertion order. -/
def process_bubbles (bubbles : List (PyStr × ℚ)) (threshold : ℚ) : ProcState :=
  bubbles.foldl (process_bubble threshold) ⟨[], []⟩

/-- Lines 368-374: D becomes `'.'`, S becomes `'/'`, digits stay verbatim. -/
def digitToken (d : PyStr) : PyStr :=
  if d = "D".data then ".".data else if d = "S".data then "/".data else d

/-- Line 362: `any(digit not in ['D', 'S'] for digit in positions.values())`. -/
def hasDigits (positions : List (ℕ × PyStr)) : Bool :=
  positions.any fun p => ¬(p.2 = "D".data) ∧ ¬(p.2 = "S".data)

/-- Lines 366-374: sort the recorded positions ascending (`sorted(...)` on a
dictionary with unique integer keys) and concatenate the mapped tokens. -/
def numeric_answer (positions : List (ℕ × PyStr)) : PyStr :=
  ((List.insertionSort (fun a b => a.1 ≤ b.1) positions).map fun p => digitToken p.2).flatten

/-- Lines 358-379: emit, per numeric question with a non-empty group holding at
least one actual digit, the assembled numeric answer string, appended to the
student's answers for that question. -/
def store_numeric (answers : List (PyStr × List PyStr))
    (numeric : List (PyStr × List (ℕ × PyStr))) : List (PyStr × List PyStr) :=
  numeric.foldl
    (fun acc qp =>
      if qp.2 ≠ [] ∧ hasDigits qp.2 = true then
        assocUpsert qp.1 (fun old => old.getD [] ++ [numeric_answer qp.2]) acc
      else acc)
    answers

/-- One row of the page's bubble-definition table (`page_bubbles`). -/
structure BubbleRow where
  question : PyStr
  subquestion : PyStr
  choice : PyStr
deriving DecidableEq

/-- Lines 396-405: a choice is the "Other" choice of a question when some
bubble row of the page has a question starting with `"<problem>-"` and the same
subquestion and choice. -/
def is_other_choice (page_bubbles : List BubbleRow) (question choice : PyStr) : Bool :=
  let question_num := (pySplit '.' question).headI
  let subquestion := (pySplit '.' question).getD 1 []
  page_bubbles.any fun b =>
    (question_num ++ ['-']).isPrefixOf b.question ∧
      b.subquestion = subquestion ∧ b.choice = choice

/-- Lines 381-411: store the multiple-choice answers, initialising the
question's entry, and keep each choice unless the question already has an
answer recorded and the choice is its paired "Other" choice. -/
def store_regular (page_bubbles : List BubbleRow) (answers : List (PyStr × List PyStr))
    (regular : List (PyStr × List PyStr)) : List (PyStr × List PyStr) :=
  regular.foldl
    (fun acc qc =>
      let acc1 := assocUpsert qc.1 (fun old => old.getD []) acc
      let has_numeric := ((assocFind qc.1 acc1).getD []) ≠ []
      let filtered := qc.2.filter fun choice =>
        !(decide has_numeric) || !(is_other_choice page_bubbles qc.1 choice)
      assocUpsert qc.1 (fun old => old.getD [] ++ filtered) acc1)
    answers

/-- Lines 302-411 of `process_single_image` for one student: starting from the
student's accumulated answers, classify the page's bubbles, store the numeric
answers, then the multiple-choice answers. -/
def assemble_answers (page_bubbles : List BubbleRow) (prior : List (PyStr × List PyStr))
    (bubbles : List (PyStr × ℚ)) (threshold : ℚ) : List (PyStr × List PyStr) :=
  let st := process_bubbles bubbles threshold
  store_regular page_bubbles (store_numeric prior st.numeric) st.regular

/-- The numeric answers emitted for question `q` (lines 359-379): one assembled
string when the group is non-empty and holds an actual digit, none otherwise. -/
def emitted_numeric (st : ProcState) (q : PyStr) : List PyStr :=
  match assocFind q st.numeric with
  | none => []
  | some g => if g ≠ [] ∧ hasDigits g = true then [numeric_answer g] else []

/-- The digit token recorded for `(question, position)`. -/
def lookupDigit (st : ProcState) (q : PyStr) (pos : ℕ) : Option PyStr :=
  match assocFind q st.numeric with
  | none => none
  | some m => assocFind pos m

/-- The key parses (lines 329-339) as a numeric bubble of question `q` at
position `pos`. -/
def keyTargets (key : PyStr) (q : PyStr) (pos : ℕ) : Prop :=
  let parts := pySplit '_' key
  parts.length = 2 ∧ parts.headI = q ∧
    (parts.getD 1 []).contains '-' = true ∧
    (pySplit '-' (parts.getD 1 [])).length ≥ 3 ∧
    pyInt ((pySplit '-' (parts.getD 1 [])).getD 1 []) = pos

instance (key q : PyStr) (pos : ℕ) : Decidable (keyTargets key q pos) := by
  unfold keyTargets
  infer_instance

/-- Lines 311-318: a key is a decimal/slash sentinel when the part after `'_'`
splits on `'-'` into ≥ 3 fields whose third is D or S. -/
def is_decimal_slash (key : PyStr) : Bool :=
  if key.contains '_' then
    let choice_part := (pySplit '_' key).getD 1 []
    if choice_part.contains '-' ∧ (pySplit '-' choice_part).length ≥ 3 then
      decide ((pySplit '-' choice_part).getD 2 [] = "D".data ∨
              (pySplit '-' choice_part).getD 2 [] = "S".data)
    else false
  else false

/-- Decimal representation of a natural number, as Python string formatting
produces it. -/
def natRepr (n : ℕ) : PyStr := Nat.toDigits 10 n

/-- The per-page threshold column name `f"page{page_number}_threshold"`. -/
def thresholdCol (page_number : ℕ) : PyStr :=
  "page".data ++ natRepr page_number ++ "_threshold".data

/-- The per-page results row for one student (lines 310-322 and 413-414): each
non-D/S bubble key gets its intensity as a column, then the page threshold
column is written. -/
def results_row (bubbles : List (PyStr × ℚ)) (t : ℚ) (page_number : ℕ) : List (PyStr × ℚ) :=
  let row := bubbles.foldl
    (fun acc kv => if is_decimal_slash kv.1 then acc else assocUpsert kv.1 (fun _ => kv.2) acc)
    []
  assocUpsert (thresholdCol page_number) (fun _ => t) row

/-- Line 741: the consolidated cell for one question,
`','.join(sorted(choices))`. -/
def consolidated_cell (choices : List PyStr) : PyStr :=
  List.intercalate ",".data (List.insertionSort (· ≤ ·) choices)

/-- Lines 737-744 of `create_consolidated_output`: every collected answer list
becomes the comma-join of its sorted tokens. -/
def create_consolidated_output
    (all_student_answers : List (PyStr × List (PyStr × List PyStr))) :
    List (PyStr × List (PyStr × PyStr)) :=
  all_student_answers.map fun s => (s.1, s.2.map fun qc => (qc.1, consolidated_cell qc.2))

/-- The corner loop of `align_image_with_markers` (lines 463-501).  Template
matching and perspective warping are external cv2 collaborators, so the four
per-corner match confidences and the warped result are parameters; the loop
returns the input image unchanged at the first corner whose confidence is
strictly below `THRESHOLD_CIRCLE`, and the warped image only after all four
corners passed. -/
def align_scan {α : Type} (image warped : α) (confidence : ℕ → ℚ) : List ℕ → α
  | [] => warped
  | i :: rest =>
      if confidence i < THRESHOLD_CIRCLE then image
      else align_scan image warped confidence rest

/-- Function `align_image_with_markers`, iterating over the four corner search regions
in order (top-left, top-right, bottom-left, bottom-right). -/
def align_image_with_markers {α : Type} (image warped : α) (confidence : ℕ → ℚ) : α :=
  align_scan image warped confidence [0, 1, 2, 3]

/-- The invariant maintained by the classification loop: both dictionaries have
unique keys (Python dict), and every numeric group has unique position keys. -/
def stateInv (st : ProcState) : Prop :=
  (st.numeric.map Prod.fst).Nodup ∧ (st.regular.map Prod.fst).Nodup ∧
    ∀ q g, assocFind q st.numeric = some g → (g.map Prod.fst).Nodup

theorem MIN_JUMP_pos : (0 : ℚ) < MIN_JUMP := by norm_num [MIN_JUMP]

theorem thresholdScan_of_no_jump (l : List (ℚ × ℚ)) :
    ∀ st : ℚ × ℚ, (∀ p ∈ l, p.2 - p.1 ≤ MIN_JUMP ∨ p.2 - p.1 ≤ st.1) →
    thresholdScan st l = st := by
  induction l with
  | nil => intro st _; rfl
  | cons p rest ih =>
    intro st h
    have hp := h p (List.mem_cons_self _ _)
    simp only [thresholdScan]
    rw [if_neg]
    · exact ih st fun q hq => h q (List.mem_cons_of_mem _ hq)
    · simp only [not_and, not_lt]
      intro h1
      rcases hp with h2 | h2
      · exact absurd h1 (not_lt.mpr h2)
      · exact h2

theorem thresholdScan_spec (l : List (ℚ × ℚ)) :
    ∀ g t : ℚ,
    (thresholdScan (g, t) l = (g, t) ∧ ∀ p ∈ l, p.2 - p.1 ≤ MIN_JUMP ∨ p.2 - p.1 ≤ g)
    ∨ (∃ p ∈ l, thresholdScan (g, t) l = (p.2 - p.1, (p.1 + p.2) / 2)
        ∧ MIN_JUMP < p.2 - p.1 ∧ g < p.2 - p.1
        ∧ ∀ q ∈ l, q.2 - q.1 ≤ p.2 - p.1) := by
  induction l with
  | nil =>
    intro g t
    left
    exact ⟨rfl, by simp⟩
  | cons p rest ih =>
    intro g t
    by_cases hc : MIN_JUMP < p.2 - p.1 ∧ g < p.2 - p.1
    · right
      have hstep : thresholdScan (g, t) (p :: rest)
          = thresholdScan (p.2 - p.1, (p.1 + p.2) / 2) rest := by
        simp only [thresholdScan]
        rw [if_pos]
        exact hc
      rcases ih (p.2 - p.1) ((p.1 + p.2) / 2) with ⟨heq, hall⟩ | ⟨q, hq, heq, hmj, hgt, hmax⟩
      · refine ⟨p, List.mem_cons_self _ _, hstep.trans heq, hc.1, hc.2, ?_⟩
        intro q hq
        rcases List.mem_cons.mp hq with rfl | hq
        · exact le_refl _
        · rcases hall q hq with h | h
          · linarith [hc.1]
          · exact h
      · refine ⟨q, List.mem_cons_of_mem _ hq, hstep.trans heq, hmj, lt_trans hc.2 hgt, ?_⟩
        intro r hr
        rcases List.mem_cons.mp hr with rfl | hr
        · linarith
        · exact hmax r hr
    · have hstep : thresholdScan (g, t) (p :: rest) = thresholdScan (g, t) rest := by
        simp only [thresholdScan]
        rw [if_neg]
        exact hc
      have hp : p.2 - p.1 ≤ MIN_JUMP ∨ p.2 - p.1 ≤ g := by
        by_contra hno
        push_neg at hno
        exact hc ⟨hno.1, hno.2⟩
      rcases ih g t with ⟨heq, hall⟩ | ⟨q, hq, heq, hmj, hgt, hmax⟩
      · left
        refine ⟨hstep.trans heq, ?_⟩
        intro q hq
        rcases List.mem_cons.mp hq with rfl | hq
        · exact hp
        · exact hall q hq
      · right
        refine ⟨q, List.mem_cons_of_mem _ hq, hstep.trans heq, hmj, hgt, ?_⟩
        intro r hr
        rcases List.mem_cons.mp hr with rfl | hr
        · rcases hp with h | h
          · linarith
          · linarith
        · exact hmax r hr

/-- C1 (amended): for every list of intensities whose ascending sort contains a
consecutive pair with gap strictly above `MIN_JUMP` (25), `calculate_threshold`
returns the midpoint of a consecutive pair whose gap exceeds `MIN_JUMP` and is
maximal among all consecutive gaps, clamped to at most `GLOBAL_THRESHOLD` (210);
in particular, on `[50, 55, 60, 180, 185, 190]` it returns 120. -/
theorem calculate_threshold_largest_gap :
    (∀ l s : List ℚ, s.Perm l → s.Sorted (· ≤ ·) →
      (∃ p ∈ adjacentPairs s, MIN_JUMP < p.2 - p.1) →
      ∃ p ∈ adjacentPairs s, MIN_JUMP < p.2 - p.1 ∧
        (∀ q ∈ adjacentPairs s, q.2 - q.1 ≤ p.2 - p.1) ∧
        calculate_threshold l = min ((p.1 + p.2) / 2) GLOBAL_THRESHOLD)
    ∧ calculate_threshold [50, 55, 60, 180, 185, 190] = 120 := by
  constructor
  · intro l s hperm hsort hex
    have hs : s = l.insertionSort (· ≤ ·) :=
      List.eq_of_perm_of_sorted (hperm.trans (List.perm_insertionSort _ l).symm) hsort
        (List.sorted_insertionSort _ l)
    obtain ⟨p0, hp0, hgap0⟩ := hex
    have hsne : s ≠ [] := by
      intro hnil
      rw [hnil] at hp0
      simp [adjacentPairs] at hp0
    have hne : l ≠ [] := by
      intro hnil
      exact hsne (List.Perm.eq_nil (hnil ▸ hperm))
    rcases thresholdScan_spec (adjacentPairs s) 0 (min 200 GLOBAL_THRESHOLD) with
      ⟨_, hall⟩ | ⟨p, hp, heq, hmj, _, hmax⟩
    · exfalso
      rcases hall p0 hp0 with h | h
      · linarith
      · linarith [MIN_JUMP_pos]
    · refine ⟨p, hp, hmj, hmax, ?_⟩
      simp only [calculate_threshold, if_neg hne]
      rw [← hs, heq]
      have hgapne : p.2 - p.1 ≠ 0 := ne_of_gt (lt_trans MIN_JUMP_pos hmj)
      simp [hgapne]
  · norm_num [calculate_threshold, adjacentPairs, thresholdScan, MIN_JUMP, GLOBAL_THRESHOLD]
    decide

/-- C1 witness: on `[50, 55, 60, 180, 185, 190]` the maximal-gap pair exists
and the returned value is its clamped midpoint. -/
theorem calculate_threshold_largest_gap_witness :
    ∃ p ∈ adjacentPairs [50, 55, 60, 180, 185, 190], MIN_JUMP < p.2 - p.1 ∧
      (∀ q ∈ adjacentPairs [50, 55, 60, 180, 185, 190], q.2 - q.1 ≤ p.2 - p.1) ∧
      calculate_threshold [50, 55, 60, 180, 185, 190] = min ((p.1 + p.2) / 2) GLOBAL_THRESHOLD :=
  calculate_threshold_largest_gap.1 [50, 55, 60, 180, 185, 190] [50, 55, 60, 180, 185, 190]
    (List.Perm.refl _) (by norm_num [List.Sorted])
    (by norm_num [adjacentPairs, MIN_JUMP])

/-- C1 counterexample: on `[200, 250]` the (unique, hence largest) consecutive
gap is 50 > 25 with midpoint 225, yet `calculate_threshold` returns 210, because
the code clamps the midpoint at `GLOBAL_THRESHOLD`. -/
theorem calculate_threshold_midpoint_cex :
    calculate_threshold [200, 250] = 210 ∧ ((200 : ℚ) + 250) / 2 = 225 ∧ (225 : ℚ) ≠ 210 := by
  refine ⟨?_, by norm_num, by norm_num⟩
  norm_num [calculate_threshold, adjacentPairs, thresholdScan, MIN_JUMP, GLOBAL_THRESHOLD]
  decide

/-- C5: for every non-empty list of intensities whose ascending sort has no
consecutive pair with gap above `MIN_JUMP` (25), `calculate_threshold` returns
the arithmetic mean of the values clamped at `GLOBAL_THRESHOLD` (210); in
particular, on a list of all 128s it returns 128. -/
theorem calculate_threshold_mean_fallback :
    (∀ l s : List ℚ, l ≠ [] → s.Perm l → s.Sorted (· ≤ ·) →
      (∀ p ∈ adjacentPairs s, p.2 - p.1 ≤ MIN_JUMP) →
      calculate_threshold l = min (l.sum / (l.length : ℚ)) GLOBAL_THRESHOLD)
    ∧ ∀ n : ℕ, 0 < n → calculate_threshold (List.replicate n 128) = 128 := by
  have main : ∀ l s : List ℚ, l ≠ [] → s.Perm l → s.Sorted (· ≤ ·) →
      (∀ p ∈ adjacentPairs s, p.2 - p.1 ≤ MIN_JUMP) →
      calculate_threshold l = min (l.sum / (l.length : ℚ)) GLOBAL_THRESHOLD := by
    intro l s hne hperm hsort hsmall
    have hs : s = l.insertionSort (· ≤ ·) :=
      List.eq_of_perm_of_sorted (hperm.trans (List.perm_insertionSort _ l).symm) hsort
        (List.sorted_insertionSort _ l)
    have hscan : thresholdScan (0, min 200 GLOBAL_THRESHOLD) (adjacentPairs s)
        = (0, min 200 GLOBAL_THRESHOLD) := by
      apply thresholdScan_of_no_jump
      intro p hp
      exact Or.inl (hsmall p hp)
    simp only [calculate_threshold, if_neg hne]
    rw [← hs, hscan]
    have hsum : s.sum = l.sum := hperm.sum_eq
    have hlen : s.length = l.length := hperm.length_eq
    simp [hsum, hlen]
  refine ⟨main, ?_⟩
  intro n hn
  have hne : List.replicate n (128 : ℚ) ≠ [] := by
    simp [List.replicate_eq_nil_iff]
    omega
  have hrep : calculate_threshold (List.replicate n (128 : ℚ))
      = min ((List.replicate n (128 : ℚ)).sum / ((List.replicate n (128 : ℚ)).length : ℚ))
          GLOBAL_THRESHOLD := by
    apply main _ _ hne (List.Perm.refl _)
    · exact List.pairwise_replicate.mpr (Or.inr (le_refl (128 : ℚ)))
    · intro p hp
      have hmem := List.of_mem_zip hp
      have h1 : p.1 = 128 := List.eq_of_mem_replicate hmem.1
      have h2 : p.2 = 128 := by
        have := hmem.2
        rw [List.tail_replicate] at this
        exact List.eq_of_mem_replicate this
      rw [h1, h2]
      simp [MIN_JUMP]
  rw [hrep]
  have hnq : ((n : ℚ)) ≠ 0 := by
    exact_mod_cast Nat.pos_iff_ne_zero.mp hn
  rw [List.sum_replicate, List.length_replicate]
  rw [nsmul_eq_mul, mul_comm, mul_div_assoc, div_self hnq, mul_one]
  norm_num [GLOBAL_THRESHOLD]

/-- C5 witness: on three 128s the mean fallback yields 128. -/
theorem calculate_threshold_mean_fallback_witness :
    calculate_threshold (List.replicate 3 128) = 128 :=
  calculate_threshold_mean_fallback.2 3 (by norm_num)

theorem ratTrunc_eq_ceil_of_neg {q : ℚ} (h : q < 0) : ratTrunc q = ⌈q⌉ := by
  rw [ratTrunc, if_pos h, Int.floor_neg, neg_neg]

/-- C4 (amended): for every value and positive dpi, `point_to_pixel(value, dpi)`
is the truncation toward zero of `value * dpi / 72.27`: it equals
`floor(value * dpi / 72.27)` when that quotient is non-negative, but equals the
ceiling (not the floor) when the quotient is negative. -/
theorem point_to_pixel_trunc (v d : ℚ) (_hd : 0 < d) :
    (0 ≤ v * d / (7227 / 100) → point_to_pixel v d = ⌊v * d / (7227 / 100)⌋) ∧
    (v * d / (7227 / 100) < 0 → point_to_pixel v d = ⌈v * d / (7227 / 100)⌉) := by
  constructor
  · intro h
    rw [point_to_pixel, ratTrunc, if_neg (not_lt.mpr h)]
  · intro h
    rw [point_to_pixel, ratTrunc_eq_ceil_of_neg h]

/-- C4 witness: at value 1 and dpi 200 the quotient is non-negative and the
result is its floor, namely 2. -/
theorem point_to_pixel_trunc_witness :
    point_to_pixel 1 200 = ⌊(1 * 200 / (7227 / 100) : ℚ)⌋ ∧ point_to_pixel 1 200 = 2 := by
  have h := (point_to_pixel_trunc 1 200 (by norm_num)).1 (by norm_num)
  refine ⟨h, h.trans ?_⟩
  rw [show ((1 : ℚ) * 200 / (7227 / 100)) = 20000 / 7227 by norm_num]
  rw [Int.floor_eq_iff (α := ℚ)]
  constructor <;> norm_num

/-- C4 counterexample: at value −1 and dpi 200 the quotient −20000/7227 is
negative; the code truncates toward zero and returns −2, while the floor
is −3. -/
theorem point_to_pixel_floor_cex :
    point_to_pixel (-1) 200 = -2 ∧ ⌊((-1 : ℚ) * 200 / (7227 / 100))⌋ = -3 ∧ (-2 : ℤ) ≠ -3 := by
  have hq : ((-1 : ℚ) * 200 / (7227 / 100)) = -20000 / 7227 := by norm_num
  have hfloor : ⌊((-20000 : ℚ) / 7227)⌋ = -3 := by
    rw [Int.floor_eq_iff (α := ℚ)]
    constructor <;> norm_num
  have hceil : ⌈((-20000 : ℚ) / 7227)⌉ = -2 := by
    rw [Int.ceil_eq_iff (α := ℚ)]
    constructor <;> norm_num
  refine ⟨?_, by rw [hq]; exact hfloor, by norm_num⟩
  rw [point_to_pixel, hq, ratTrunc_eq_ceil_of_neg (by norm_num), hceil]

/-- C3: a non-D/S bubble reading is classified marked iff its intensity is
strictly below the threshold and strictly below `GLOBAL_THRESHOLD` (210);
hence intensity at or above the threshold is never marked, and intensity
strictly below both bounds is always marked. -/
theorem is_marked_iff (v t : ℚ) :
    (is_marked v t = true ↔ v < t ∧ v < GLOBAL_THRESHOLD) ∧
    (t ≤ v → is_marked v t = false) ∧
    (v < t → v < GLOBAL_THRESHOLD → is_marked v t = true) := by
  refine ⟨?_, ?_, ?_⟩
  · simp [is_marked]
  · intro h
    simp [is_marked, not_lt.mpr h]
  · intro h1 h2
    simp [is_marked, h1, h2]

/-- C3 witness: intensity 150 with threshold 100 is not marked; intensity 50
with threshold 120 is marked. -/
theorem is_marked_iff_witness :
    is_marked 150 100 = false ∧ is_marked 50 120 = true :=
  ⟨(is_marked_iff 150 100).2.1 (by norm_num),
   (is_marked_iff 50 120).2.2 (by norm_num) (by norm_num [GLOBAL_THRESHOLD])⟩

section AssocLemmas

variable {α β : Type} [DecidableEq α]

theorem assocFind_upsert_self (k : α) (f : Option β → β) (l : List (α × β)) :
    assocFind k (assocUpsert k f l) = some (f (assocFind k l)) := by
  induction l with
  | nil => simp [assocFind, assocUpsert]
  | cons kv rest ih =>
    by_cases h : kv.1 = k
    · simp [assocFind, assocUpsert, h]
    · simp [assocFind, assocUpsert, h, ih]

theorem assocFind_upsert_ne {k k' : α} (h : k' ≠ k) (f : Option β → β) (l : List (α × β)) :
    assocFind k' (assocUpsert k f l) = assocFind k' l := by
  induction l with
  | nil => simp [assocFind, assocUpsert, Ne.symm h]
  | cons kv rest ih =>
    by_cases h2 : kv.1 = k
    · have h3 : kv.1 ≠ k' := by rw [h2]; exact Ne.symm h
      simp [assocFind, assocUpsert, h2, h3, Ne.symm h]
    · by_cases h3 : kv.1 = k'
      · simp [assocFind, assocUpsert, h2, h3, Ne.symm h, h]
      · simp [assocFind, assocUpsert, h2, h3, ih]

theorem assocFind_eq_none_iff (k : α) (l : List (α × β)) :
    assocFind k l = none ↔ k ∉ l.map Prod.fst := by
  induction l with
  | nil => simp [assocFind]
  | cons kv rest ih =>
    by_cases h : kv.1 = k
    · simp [assocFind, h]
    · simp [assocFind, h, ih, Ne.symm h]

theorem assocFind_mem {k : α} {v : β} {l : List (α × β)}
    (h : assocFind k l = some v) : (k, v) ∈ l := by
  induction l with
  | nil => simp [assocFind] at h
  | cons kv rest ih =>
    obtain ⟨a, b⟩ := kv
    by_cases h2 : a = k
    · subst h2
      simp only [assocFind, if_pos rfl] at h
      obtain rfl : b = v := Option.some.inj h
      exact List.mem_cons_self _ _
    · simp only [assocFind, if_neg h2] at h
      exact List.mem_cons_of_mem _ (ih h)

theorem assocUpsert_eq_self {k : α} {f : Option β → β} {l : List (α × β)} {v : β}
    (hfind : assocFind k l = some v) (hf : f (some v) = v) : assocUpsert k f l = l := by
  induction l with
  | nil => simp [assocFind] at hfind
  | cons kv rest ih =>
    by_cases h : kv.1 = k
    · rw [assocFind, if_pos h] at hfind
      obtain rfl : kv.2 = v := Option.some.inj hfind
      rw [assocUpsert, if_pos h, hf]
    · rw [assocFind, if_neg h] at hfind
      rw [assocUpsert, if_neg h, ih hfind]

theorem assocUpsert_keys (k : α) (f : Option β → β) (l : List (α × β)) :
    (assocUpsert k f l).map Prod.fst =
      if k ∈ l.map Prod.fst then l.map Prod.fst else l.map Prod.fst ++ [k] := by
  induction l with
  | nil => simp [assocUpsert]
  | cons kv rest ih =>
    by_cases h : kv.1 = k
    · simp [assocUpsert, h]
    · simp only [assocUpsert, if_neg h, List.map_cons, ih]
      by_cases h2 : k ∈ rest.map Prod.fst
      · rw [if_pos h2, if_pos (by simp [h2])]
      · rw [if_neg h2, if_neg (by simp [h2, Ne.symm h]), List.cons_append]

theorem assocUpsert_keys_nodup {k : α} {f : Option β → β} {l : List (α × β)}
    (h : (l.map Prod.fst).Nodup) : ((assocUpsert k f l).map Prod.fst).Nodup := by
  rw [assocUpsert_keys]
  by_cases h2 : k ∈ l.map Prod.fst
  · rwa [if_pos h2]
  · rw [if_neg h2]
    simp [List.nodup_append, h, h2]

end AssocLemmas


theorem mem_assocUpsert_keys {α β : Type} [DecidableEq α] (k key : α) (f : Option β → β)
    (l : List (α × β)) :
    key ∈ (assocUpsert k f l).map Prod.fst ↔ key ∈ l.map Prod.fst ∨ key = k := by
  rw [assocUpsert_keys]
  by_cases h : k ∈ l.map Prod.fst
  · rw [if_pos h]
    constructor
    · exact Or.inl
    · rintro (h2 | rfl)
      · exact h2
      · exact h
  · rw [if_neg h]
    simp [List.mem_append]

theorem store_numeric_find_of_not_mem (q : PyStr)
    (numeric : List (PyStr × List (ℕ × PyStr))) (h : q ∉ numeric.map Prod.fst) :
    ∀ answers, assocFind q (store_numeric answers numeric) = assocFind q answers := by
  induction numeric with
  | nil => intro answers; rfl
  | cons qp rest ih =>
    intro answers
    have hne : q ≠ qp.1 := fun he => h (by simp [he])
    have hrest : q ∉ rest.map Prod.fst := fun hm => h (by simp [hm])
    show assocFind q (store_numeric (if qp.2 ≠ [] ∧ hasDigits qp.2 = true
        then assocUpsert qp.1 (fun old => old.getD [] ++ [numeric_answer qp.2]) answers
        else answers) rest) = assocFind q answers
    rw [ih hrest]
    by_cases hc : qp.2 ≠ [] ∧ hasDigits qp.2 = true
    · rw [if_pos hc, assocFind_upsert_ne hne]
    · rw [if_neg hc]

theorem store_numeric_find (numeric : List (PyStr × List (ℕ × PyStr))) :
    ∀ (q : PyStr) (g : List (ℕ × PyStr)) answers,
      (numeric.map Prod.fst).Nodup → (q, g) ∈ numeric →
      assocFind q (store_numeric answers numeric) =
        if g ≠ [] ∧ hasDigits g = true
        then some ((assocFind q answers).getD [] ++ [numeric_answer g])
        else assocFind q answers := by
  induction numeric with
  | nil =>
    intro q g answers _ hmem
    exact absurd hmem (List.not_mem_nil _)
  | cons qp rest ih =>
    intro q g answers hnd hmem
    simp only [List.map_cons, List.nodup_cons] at hnd
    rcases List.mem_cons.mp hmem with heq | hmem2
    · subst heq
      show assocFind q (store_numeric (if g ≠ [] ∧ hasDigits g = true
          then assocUpsert q (fun old => old.getD [] ++ [numeric_answer g]) answers
          else answers) rest) = _
      rw [store_numeric_find_of_not_mem q rest hnd.1]
      by_cases hc : g ≠ [] ∧ hasDigits g = true
      · rw [if_pos hc, if_pos hc, assocFind_upsert_self]
      · rw [if_neg hc, if_neg hc]
    · have hq : qp.1 ≠ q := by
        intro he
        exact hnd.1 (he ▸ List.mem_map_of_mem Prod.fst hmem2)
      show assocFind q (store_numeric (if qp.2 ≠ [] ∧ hasDigits qp.2 = true
          then assocUpsert qp.1 (fun old => old.getD [] ++ [numeric_answer qp.2]) answers
          else answers) rest) = _
      rw [ih q g _ hnd.2 hmem2]
      have hstep : assocFind q (if qp.2 ≠ [] ∧ hasDigits qp.2 = true
          then assocUpsert qp.1 (fun old => old.getD [] ++ [numeric_answer qp.2]) answers
          else answers) = assocFind q answers := by
        by_cases hc : qp.2 ≠ [] ∧ hasDigits qp.2 = true
        · rw [if_pos hc, assocFind_upsert_ne (Ne.symm hq)]
        · rw [if_neg hc]
      rw [hstep]

/-- C2: for a numeric question group of recorded digit/D/S tokens keyed by
position, if at least one actual digit is present the emitted numeric answer is
the concatenation, over positions in ascending order, of D as `'.'`, S as
`'/'` and digits verbatim, appended to the student's answers; a group with only
D/S tokens emits no numeric answer. -/
theorem numeric_answer_spec :
    (∀ g : List (ℕ × PyStr), (g.map Prod.fst).Nodup → hasDigits g = true →
      ∃ l : List (ℕ × PyStr), l.Perm g ∧ (l.map Prod.fst).Sorted (· ≤ ·) ∧
        numeric_answer g = (l.map fun p => digitToken p.2).flatten) ∧
    (∀ (q : PyStr) (g : List (ℕ × PyStr)) (answers : List (PyStr × List PyStr)),
      hasDigits g = true →
      assocFind q (store_numeric answers [(q, g)]) =
        some (((assocFind q answers).getD []) ++ [numeric_answer g])) ∧
    (∀ (q : PyStr) (g : List (ℕ × PyStr)) (answers : List (PyStr × List PyStr)),
      hasDigits g = false →
      store_numeric answers [(q, g)] = answers) := by
  refine ⟨?_, ?_, ?_⟩
  · intro g _hnd _hd
    haveI : IsTotal (ℕ × PyStr) (fun a b => a.1 ≤ b.1) := ⟨fun a b => le_total a.1 b.1⟩
    haveI : IsTrans (ℕ × PyStr) (fun a b => a.1 ≤ b.1) := ⟨fun _ _ _ h1 h2 => le_trans h1 h2⟩
    refine ⟨List.insertionSort (fun a b => a.1 ≤ b.1) g, List.perm_insertionSort _ g, ?_, rfl⟩
    have hs := List.sorted_insertionSort (fun a b => a.1 ≤ b.1) g
    exact List.pairwise_map.mpr hs
  · intro q g answers hd
    have hgne : g ≠ [] := by
      intro hnil
      rw [hnil] at hd
      simp [hasDigits] at hd
    show assocFind q (store_numeric (if g ≠ [] ∧ hasDigits g = true
        then assocUpsert q (fun old => old.getD [] ++ [numeric_answer g]) answers
        else answers) []) = _
    rw [if_pos ⟨hgne, hd⟩]
    show assocFind q (assocUpsert q (fun old => old.getD [] ++ [numeric_answer g]) answers) = _
    rw [assocFind_upsert_self]
  · intro q g answers hd
    show (if g ≠ [] ∧ hasDigits g = true
        then assocUpsert q (fun old => old.getD [] ++ [numeric_answer g]) answers
        else answers) = answers
    rw [if_neg]
    intro hc
    rw [hc.2] at hd
    exact Bool.true_eq_false.mp hd

/-- C2 witness: positions `{0:'1',1:'D',2:'5'}` yield `"1.5"`, positions
`{0:'3',1:'S',2:'4'}` yield `"3/4"`, and a D-only group emits nothing. -/
theorem numeric_answer_spec_witness :
    assocFind "1.i".data (store_numeric []
        [("1.i".data, [(0, "1".data), (1, "D".data), (2, "5".data)])]) = some ["1.5".data] ∧
    assocFind "2.i".data (store_numeric []
        [("2.i".data, [(0, "3".data), (1, "S".data), (2, "4".data)])]) = some ["3/4".data] ∧
    store_numeric [] [("3.i".data, [(1, "D".data)])] = [] := by
  refine ⟨?_, ?_, numeric_answer_spec.2.2 "3.i".data [(1, "D".data)] [] (by decide)⟩
  · rw [numeric_answer_spec.2.1 "1.i".data [(0, "1".data), (1, "D".data), (2, "5".data)] []
      (by decide)]
    decide
  · rw [numeric_answer_spec.2.1 "2.i".data [(0, "3".data), (1, "S".data), (2, "4".data)] []
      (by decide)]
    decide


theorem process_bubble_cases (t : ℚ) (st : ProcState) (kv : PyStr × ℚ) :
    process_bubble t st kv = st ∨
    (∃ (q : PyStr) (pos : ℕ) (d : PyStr),
      (process_bubble t st kv).regular = st.regular ∧
      (process_bubble t st kv).numeric = assocUpsert q
        (fun old =>
          let m := old.getD []
          if (assocFind pos m).isSome then m else m ++ [(pos, d)]) st.numeric) ∨
    (∃ (q : PyStr) (c : PyStr),
      (process_bubble t st kv).numeric = st.numeric ∧
      (process_bubble t st kv).regular =
        assocUpsert q (fun old => old.getD [] ++ [c]) st.regular) := by
  simp only [process_bubble]
  split_ifs with h1 h2 h3 h4
  · exact Or.inr (Or.inl ⟨_, _, _, rfl, rfl⟩)
  · exact Or.inl rfl
  · exact Or.inr (Or.inr ⟨_, _, rfl, rfl⟩)
  · exact Or.inl rfl
  · exact Or.inl rfl

theorem stateInv_process_bubble (t : ℚ) (st : ProcState) (kv : PyStr × ℚ)
    (h : stateInv st) : stateInv (process_bubble t st kv) := by
  obtain ⟨h1, h2, h3⟩ := h
  rcases process_bubble_cases t st kv with heq | ⟨q, pos, d, hreg, hnum⟩ | ⟨q, c, hnum, hreg⟩
  · rw [heq]
    exact ⟨h1, h2, h3⟩
  · refine ⟨?_, hreg ▸ h2, ?_⟩
    · rw [hnum]
      exact assocUpsert_keys_nodup h1
    · intro q' g' hfind
      rw [hnum] at hfind
      by_cases hq : q' = q
      · subst hq
        rw [assocFind_upsert_self] at hfind
        obtain rfl := Option.some.inj hfind
        cases hold : assocFind q' st.numeric with
        | none =>
          simp only [hold, Option.getD_none]
          rw [show assocFind pos ([] : List (ℕ × PyStr)) = none from rfl]
          simp
        | some m =>
          have hm := h3 q' m hold
          simp only [hold, Option.getD_some]
          by_cases hpos : (assocFind pos m).isSome
          · rw [if_pos hpos]
            exact hm
          · rw [if_neg hpos]
            have hnotin : pos ∉ m.map Prod.fst := by
              rw [← assocFind_eq_none_iff]
              exact Option.not_isSome_iff_eq_none.mp hpos
            simp [List.nodup_append, hm, hnotin]
      · rw [assocFind_upsert_ne hq] at hfind
        exact h3 q' g' hfind
  · refine ⟨hnum ▸ h1, ?_, ?_⟩
    · rw [hreg]
      exact assocUpsert_keys_nodup h2
    · intro q' g' hfind
      rw [hnum] at hfind
      exact h3 q' g' hfind

theorem stateInv_foldl (t : ℚ) (bubbles : List (PyStr × ℚ)) :
    ∀ st : ProcState, stateInv st → stateInv (bubbles.foldl (process_bubble t) st) := by
  induction bubbles with
  | nil => exact fun st h => h
  | cons kv rest ih =>
    intro st h
    exact ih _ (stateInv_process_bubble t st kv h)

theorem stateInv_process_bubbles (bubbles : List (PyStr × ℚ)) (t : ℚ) :
    stateInv (process_bubbles bubbles t) := by
  apply stateInv_foldl
  refine ⟨List.nodup_nil, List.nodup_nil, ?_⟩
  intro q g hfind
  simp [assocFind] at hfind


theorem process_bubble_eq_of_recorded (t : ℚ) (st : ProcState) (e : PyStr × ℚ)
    (q : PyStr) (pos : ℕ) (htar : keyTargets e.1 q pos)
    (hsome : (lookupDigit st q pos).isSome = true) :
    process_bubble t st e = st := by
  obtain ⟨hlen, hhead, hcont, hsplit, hpos⟩ := htar
  obtain ⟨m, hm, hposm⟩ :
      ∃ m, assocFind q st.numeric = some m ∧ (assocFind pos m).isSome = true := by
    unfold lookupDigit at hsome
    cases hfind : assocFind q st.numeric with
    | none => rw [hfind] at hsome; simp at hsome
    | some m => rw [hfind] at hsome; exact ⟨m, rfl, hsome⟩
  simp only [process_bubble]
  rw [if_pos hlen, if_pos ⟨hcont, hsplit⟩]
  by_cases hc : (pySplit '-' ((pySplit '_' e.1).getD 1 [])).getD 2 [] = "D".data ∨
      (pySplit '-' ((pySplit '_' e.1).getD 1 [])).getD 2 [] = "S".data ∨
      is_marked e.2 t
  · rw [if_pos hc, hhead, hpos]
    have hid : assocUpsert q
        (fun old =>
          let m' := old.getD []
          if (assocFind pos m').isSome then m'
          else m' ++ [(pos, (pySplit '-' ((pySplit '_' e.1).getD 1 [])).getD 2 [])])
        st.numeric = st.numeric := by
      apply assocUpsert_eq_self hm
      show (if (assocFind pos m).isSome then m
            else m ++ [(pos, (pySplit '-' ((pySplit '_' e.1).getD 1 [])).getD 2 [])]) = m
      rw [if_pos hposm]
    rw [hid]
  · rw [if_neg hc]

/-- C10: for every numeric question and position, at most one digit token is
recorded (each group's position keys are unique), and when a position is
already recorded, processing a further bubble keyed to the same question and
position leaves the classification state — and hence the recorded token and
the numeric answer — unchanged. -/
theorem numeric_position_first_wins :
    (∀ (bubbles : List (PyStr × ℚ)) (t : ℚ) (q : PyStr) (g : List (ℕ × PyStr)),
      assocFind q (process_bubbles bubbles t).numeric = some g →
      (g.map Prod.fst).Nodup) ∧
    (∀ (bubbles : List (PyStr × ℚ)) (t : ℚ) (e : PyStr × ℚ) (q : PyStr) (pos : ℕ),
      keyTargets e.1 q pos →
      (lookupDigit (process_bubbles bubbles t) q pos).isSome = true →
      process_bubbles (bubbles ++ [e]) t = process_bubbles bubbles t) := by
  constructor
  · intro bubbles t q g hfind
    exact (stateInv_process_bubbles bubbles t).2.2 q g hfind
  · intro bubbles t e q pos htar hsome
    show (bubbles ++ [e]).foldl (process_bubble t) ⟨[], []⟩ = _
    rw [List.foldl_append]
    exact process_bubble_eq_of_recorded t _ e q pos htar hsome

/-- C10 witness: with position 0 of question `1.i` already holding `"3"` from
`"1.i_1-0-3"`, appending the also-marked `"1.i_1-0-7"` for the same position
changes nothing, and the recorded group has unique position keys. -/
theorem numeric_position_first_wins_witness :
    process_bubbles ([("1.i_1-0-3".data, (40 : ℚ))] ++ [("1.i_1-0-7".data, 50)]) 120
      = process_bubbles [("1.i_1-0-3".data, 40)] 120 ∧
    lookupDigit (process_bubbles [("1.i_1-0-3".data, (40 : ℚ))] 120) "1.i".data 0
      = some "3".data ∧
    (([(0, "3".data)] : List (ℕ × PyStr)).map Prod.fst).Nodup := by
  refine ⟨numeric_position_first_wins.2 [("1.i_1-0-3".data, 40)] 120 ("1.i_1-0-7".data, 50)
    "1.i".data 0 (by decide) (by decide), by decide, ?_⟩
  exact numeric_position_first_wins.1 [("1.i_1-0-3".data, 40)] 120 "1.i".data [(0, "3".data)]
    (by decide)


theorem store_regular_find_of_not_mem (pb : List BubbleRow) (q : PyStr)
    (regular : List (PyStr × List PyStr)) (h : q ∉ regular.map Prod.fst) :
    ∀ answers, assocFind q (store_regular pb answers regular) = assocFind q answers := by
  induction regular with
  | nil => intro answers; rfl
  | cons qc rest ih =>
    intro answers
    have hne : q ≠ qc.1 := fun he => h (by simp [he])
    have hrest : q ∉ rest.map Prod.fst := fun hm => h (by simp [hm])
    show assocFind q (store_regular pb
        (assocUpsert qc.1
          (fun old => old.getD [] ++ qc.2.filter fun choice =>
            !(decide (((assocFind qc.1
              (assocUpsert qc.1 (fun old => old.getD []) answers)).getD []) ≠ [])) ||
            !(is_other_choice pb qc.1 choice))
          (assocUpsert qc.1 (fun old => old.getD []) answers)) rest) = assocFind q answers
    rw [ih hrest, assocFind_upsert_ne hne, assocFind_upsert_ne hne]

theorem store_regular_find (pb : List BubbleRow) (regular : List (PyStr × List PyStr)) :
    ∀ (q : PyStr) (cs : List PyStr) answers,
      (regular.map Prod.fst).Nodup → (q, cs) ∈ regular →
      assocFind q (store_regular pb answers regular) =
        some ((assocFind q answers).getD [] ++
          cs.filter fun c =>
            !(decide (((assocFind q answers).getD []) ≠ [])) ||
            !(is_other_choice pb q c)) := by
  induction regular with
  | nil =>
    intro q cs answers _ hmem
    exact absurd hmem (List.not_mem_nil _)
  | cons qc rest ih =>
    intro q cs answers hnd hmem
    simp only [List.map_cons, List.nodup_cons] at hnd
    rcases List.mem_cons.mp hmem with heq | hmem2
    · subst heq
      show assocFind q (store_regular pb
          (assocUpsert q
            (fun old => old.getD [] ++ cs.filter fun choice =>
              !(decide (((assocFind q
                (assocUpsert q (fun old => old.getD []) answers)).getD []) ≠ [])) ||
              !(is_other_choice pb q choice))
            (assocUpsert q (fun old => old.getD []) answers)) rest) = _
      rw [store_regular_find_of_not_mem pb q rest hnd.1, assocFind_upsert_self,
        assocFind_upsert_self]
      simp only [Option.getD_some]
    · have hq : qc.1 ≠ q := by
        intro he
        exact hnd.1 (he ▸ List.mem_map_of_mem Prod.fst hmem2)
      show assocFind q (store_regular pb
          (assocUpsert qc.1
            (fun old => old.getD [] ++ qc.2.filter fun choice =>
              !(decide (((assocFind qc.1
                (assocUpsert qc.1 (fun old => old.getD []) answers)).getD []) ≠ [])) ||
              !(is_other_choice pb qc.1 choice))
            (assocUpsert qc.1 (fun old => old.getD []) answers)) rest) = _
      rw [ih q cs _ hnd.2 hmem2, assocFind_upsert_ne (Ne.symm hq),
        assocFind_upsert_ne (Ne.symm hq)]

/-- C6 (amended): a marked multiple-choice choice of question `q` that is
paired with a numeric-bubble group (a page row whose question starts with
`"<problem>-"` and matches the subquestion and choice) is excluded from `q`'s
answers iff the student's accumulated answer list for `q` is non-empty when the
multiple-choice answers are stored — previously recorded answers followed by
this page's emitted numeric answers; when the student had no previous answers
for `q`, that is exactly "a numeric answer was produced for `q`".  The final
entry for `q` is the previous answers, the emitted numeric answers, then the
so-filtered choices. -/
theorem other_choice_suppression
    (page_bubbles : List BubbleRow) (prior : List (PyStr × List PyStr))
    (bubbles : List (PyStr × ℚ)) (t : ℚ) (q : PyStr) (reg : List PyStr)
    (hreg : assocFind q (process_bubbles bubbles t).regular = some reg) :
    assocFind q (assemble_answers page_bubbles prior bubbles t) =
      some (((assocFind q prior).getD [] ++
          emitted_numeric (process_bubbles bubbles t) q) ++
        reg.filter fun c =>
          !(decide (((assocFind q prior).getD [] ++
              emitted_numeric (process_bubbles bubbles t) q) ≠ [])) ||
          !(is_other_choice page_bubbles q c)) := by
  have hinv := stateInv_process_bubbles bubbles t
  have hgetd : (assocFind q (store_numeric prior (process_bubbles bubbles t).numeric)).getD []
      = (assocFind q prior).getD [] ++ emitted_numeric (process_bubbles bubbles t) q := by
    cases hfind : assocFind q (process_bubbles bubbles t).numeric with
    | none =>
      have hnot : q ∉ (process_bubbles bubbles t).numeric.map Prod.fst :=
        (assocFind_eq_none_iff q _).mp hfind
      rw [store_numeric_find_of_not_mem q _ hnot prior]
      simp [emitted_numeric, hfind]
    | some g =>
      have hmem := assocFind_mem hfind
      rw [store_numeric_find _ q g prior hinv.1 hmem]
      by_cases hc : g ≠ [] ∧ hasDigits g = true
      · rw [if_pos hc]
        simp [emitted_numeric, hfind, hc]
      · rw [if_neg hc]
        simp only [emitted_numeric, hfind]
        rw [if_neg hc]
        simp
  show assocFind q (store_regular page_bubbles
      (store_numeric prior (process_bubbles bubbles t).numeric)
      (process_bubbles bubbles t).regular) = _
  rw [store_regular_find page_bubbles _ q reg _ hinv.2.1 (assocFind_mem hreg), hgetd]

/-- C6 witness: with rows pairing choice `e` of question `1.i` to the numeric
group `1-…`, no previous answers, marked choices `a` and `e` plus a marked
digit bubble produce the numeric answer `"3"` and keep only `a`: the paired
`e` is suppressed. -/
theorem other_choice_suppression_witness :
    assocFind "1.i".data (assemble_answers [⟨"1-1-0".data, "i".data, "e".data⟩] []
      [("1.i_a".data, (50 : ℚ)), ("1.i_e".data, 50), ("1.i_1-0-3".data, 40)] 120)
      = some ["3".data, "a".data] := by
  have h := other_choice_suppression [⟨"1-1-0".data, "i".data, "e".data⟩] []
    [("1.i_a".data, (50 : ℚ)), ("1.i_e".data, 50), ("1.i_1-0-3".data, 40)] 120 "1.i".data
    ["a".data, "e".data] (by decide)
  rw [h]
  decide

/-- C6 counterexample: with `["b"]` already accumulated for question `1.i`
(an earlier page of the same student), the current page marks only the paired
choice `e` and no digit bubble: no numeric answer is produced for `1.i`
(`emitted_numeric` is empty), yet the non-empty-list test of line 387 fires and
the paired `e` is suppressed — the final entry stays `["b"]`.  The claim's
"excluded iff a numeric answer was actually produced" is therefore false. -/
theorem other_choice_suppression_cex :
    emitted_numeric (process_bubbles [("1.i_e".data, (50 : ℚ))] 120) "1.i".data = [] ∧
    assocFind "1.i".data (process_bubbles [("1.i_e".data, (50 : ℚ))] 120).regular
      = some ["e".data] ∧
    is_other_choice [⟨"1-1-0".data, "i".data, "e".data⟩] "1.i".data "e".data = true ∧
    assocFind "1.i".data (assemble_answers [⟨"1-1-0".data, "i".data, "e".data⟩]
      [("1.i".data, ["b".data])] [("1.i_e".data, (50 : ℚ))] 120) = some ["b".data] := by
  decide


/-- C7: in the consolidated output, every question with collected answer
tokens is stored as the comma-join of the ascending sort of those tokens; in
particular choices `{"a","c"}` yield the cell `"a,c"`. -/
theorem consolidated_cell_sorted_join
    (table : List (PyStr × List (PyStr × List PyStr))) (sid q : PyStr)
    (row : List (PyStr × List PyStr)) (cs : List PyStr)
    (hst : (sid, row) ∈ table) (hq : (q, cs) ∈ row) (_hne : cs ≠ []) :
    ∃ l : List PyStr, l.Perm cs ∧ l.Sorted (· ≤ ·) ∧
      (sid, row.map fun qc => (qc.1, consolidated_cell qc.2)) ∈
        create_consolidated_output table ∧
      (q, List.intercalate ",".data l) ∈ row.map fun qc => (qc.1, consolidated_cell qc.2) := by
  refine ⟨List.insertionSort (· ≤ ·) cs, List.perm_insertionSort _ cs,
    List.sorted_insertionSort _ cs, ?_, ?_⟩
  · exact List.mem_map_of_mem _ hst
  · exact List.mem_map_of_mem (fun qc => (qc.1, consolidated_cell qc.2)) hq

/-- C7 witness: marked choices `c` and `a` on question `1.i` give the sorted,
comma-joined cell `"a,c"`. -/
theorem consolidated_cell_sorted_join_witness :
    (∃ l : List PyStr, l.Perm ["c".data, "a".data] ∧ l.Sorted (· ≤ ·) ∧
      ("s1".data, [("1.i".data, consolidated_cell ["c".data, "a".data])]) ∈
        create_consolidated_output [("s1".data, [("1.i".data, ["c".data, "a".data])])] ∧
      ("1.i".data, List.intercalate ",".data l) ∈
        [("1.i".data, consolidated_cell ["c".data, "a".data])]) ∧
    consolidated_cell ["c".data, "a".data] = "a,c".data := by
  refine ⟨consolidated_cell_sorted_join
    [("s1".data, [("1.i".data, ["c".data, "a".data])])] "s1".data "1.i".data
    [("1.i".data, ["c".data, "a".data])] ["c".data, "a".data]
    (by decide) (by decide) (by decide), by decide⟩

theorem align_scan_low {α : Type} (idxs : List ℕ) (image warped : α) (confidence : ℕ → ℚ)
    (h : ∃ i ∈ idxs, confidence i < THRESHOLD_CIRCLE) :
    align_scan image warped confidence idxs = image := by
  induction idxs with
  | nil => simp at h
  | cons i rest ih =>
    by_cases hc : confidence i < THRESHOLD_CIRCLE
    · rw [align_scan, if_pos hc]
    · rw [align_scan, if_neg hc]
      apply ih
      obtain ⟨j, hj, hlt⟩ := h
      rcases List.mem_cons.mp hj with rfl | hjr
      · exact absurd hlt hc
      · exact ⟨j, hjr, hlt⟩

theorem align_scan_high {α : Type} (idxs : List ℕ) (image warped : α) (confidence : ℕ → ℚ)
    (h : ∀ i ∈ idxs, THRESHOLD_CIRCLE ≤ confidence i) :
    align_scan image warped confidence idxs = warped := by
  induction idxs with
  | nil => rfl
  | cons i rest ih =>
    rw [align_scan, if_neg (not_lt.mpr (h i (List.mem_cons_self _ _)))]
    exact ih fun j hj => h j (List.mem_cons_of_mem _ hj)

/-- C8: if any of the four corner search windows yields a confidence strictly
below `THRESHOLD_CIRCLE` (0.6), `align_image_with_markers` returns the input
image unchanged; the warped image is produced only when all four corners reach
confidence at least 0.6. -/
theorem align_image_gate {α : Type} (image warped : α) (confidence : ℕ → ℚ) :
    ((∃ i ∈ [0, 1, 2, 3], confidence i < THRESHOLD_CIRCLE) →
      align_image_with_markers image warped confidence = image) ∧
    ((∀ i ∈ [0, 1, 2, 3], THRESHOLD_CIRCLE ≤ confidence i) →
      align_image_with_markers image warped confidence = warped) :=
  ⟨fun h => align_scan_low _ image warped confidence h,
   fun h => align_scan_high _ image warped confidence h⟩

/-- C8 witness: a low third corner (confidence 1/2 < 0.6) returns the input
unchanged; all corners at confidence 1 return the warped image. -/
theorem align_image_gate_witness :
    align_image_with_markers (0 : ℕ) 1 (fun i => if i = 2 then 1 / 2 else 1) = 0 ∧
    align_image_with_markers (0 : ℕ) 1 (fun _ => 1) = 1 := by
  constructor
  · refine (align_image_gate 0 1 _).1 ⟨2, by decide, ?_⟩
    norm_num [THRESHOLD_CIRCLE]
  · refine (align_image_gate 0 1 _).2 ?_
    intro i _
    norm_num [THRESHOLD_CIRCLE]

theorem results_fold_keys (bubbles : List (PyStr × ℚ)) :
    ∀ (acc : List (PyStr × ℚ)) (key : PyStr),
      (key ∈ (bubbles.foldl
        (fun acc kv => if is_decimal_slash kv.1 then acc
          else assocUpsert kv.1 (fun _ => kv.2) acc) acc).map Prod.fst ↔
      key ∈ acc.map Prod.fst ∨
        ∃ v, (key, v) ∈ bubbles ∧ is_decimal_slash key = false) := by
  induction bubbles with
  | nil => simp
  | cons kv rest ih =>
    intro acc key
    show key ∈ (rest.foldl _
        (if is_decimal_slash kv.1 then acc else assocUpsert kv.1 (fun _ => kv.2) acc)).map
        Prod.fst ↔ _
    rw [ih]
    by_cases hds : is_decimal_slash kv.1
    · rw [if_pos hds]
      constructor
      · rintro (hacc | hrest)
        · exact Or.inl hacc
        · exact Or.inr (by
            obtain ⟨v, hv, hk⟩ := hrest
            exact ⟨v, List.mem_cons_of_mem _ hv, hk⟩)
      · rintro (hacc | ⟨v, hv, hk⟩)
        · exact Or.inl hacc
        · rcases List.mem_cons.mp hv with heq | hvr
          · exfalso
            have : key = kv.1 := congrArg Prod.fst heq
            rw [this] at hk
            rw [hk] at hds
            exact Bool.false_ne_true hds
          · exact Or.inr ⟨v, hvr, hk⟩
    · rw [if_neg hds, mem_assocUpsert_keys]
      have hdsf : is_decimal_slash kv.1 = false := Bool.not_eq_true _ |>.mp hds
      constructor
      · rintro ((hacc | rfl) | hrest)
        · exact Or.inl hacc
        · exact Or.inr ⟨kv.2, List.mem_cons_self _ _, hdsf⟩
        · obtain ⟨v, hv, hk⟩ := hrest
          exact Or.inr ⟨v, List.mem_cons_of_mem _ hv, hk⟩
      · rintro (hacc | ⟨v, hv, hk⟩)
        · exact Or.inl (Or.inl hacc)
        · rcases List.mem_cons.mp hv with heq | hvr
          · exact Or.inl (Or.inr (congrArg Prod.fst heq))
          · exact Or.inr ⟨v, hvr, hk⟩

/-- C9 (amended): a per-page results row has one column per non-D/S bubble key
sampled on the page plus the `page{N}_threshold` column, which holds the page's
threshold; decimal/slash sentinel keys are excluded. -/
theorem results_row_columns (bubbles : List (PyStr × ℚ)) (t : ℚ) (page_number : ℕ) :
    (∀ key : PyStr, key ∈ (results_row bubbles t page_number).map Prod.fst ↔
      ((∃ v, (key, v) ∈ bubbles ∧ is_decimal_slash key = false) ∨
        key = thresholdCol page_number)) ∧
    assocFind (thresholdCol page_number) (results_row bubbles t page_number) = some t := by
  constructor
  · intro key
    show key ∈ (assocUpsert (thresholdCol page_number) (fun _ => t) _).map Prod.fst ↔ _
    rw [mem_assocUpsert_keys, results_fold_keys]
    simp
  · exact assocFind_upsert_self _ _ _

/-- C9 counterexample: the D/S sentinel key `"1.i_1-1-D"` is sampled on the
page, yet no column for it appears in the per-page results row — line 321 of
`run_omr.py` stores only non-decimal/slash bubbles. -/
theorem results_row_ds_excluded_cex :
    is_decimal_slash "1.i_1-1-D".data = true ∧
    ("1.i_1-1-D".data, (100 : ℚ)) ∈ [("1.i_1-1-D".data, (100 : ℚ))] ∧
    ¬ ("1.i_1-1-D".data ∈
        (results_row [("1.i_1-1-D".data, (100 : ℚ))] 120 3).map Prod.fst) := by
  decide

end ExamGrading
